import Mathlib

/-!
Verification development for the prompt-to-motion-graphics generation
pipeline.  Source text is modelled as `List Char`.  Components whose
implementation is present under `src/` are translated directly; components
that the specification describes but whose implementation files are not in
the repository snapshot (the edit reconciler, sanitizer, correction
supervisor, validator gate and streaming orchestration) are modelled from
the specification text, as marked on each definition.
-/

namespace Pipeline

/-- Occurrence count: `countOcc needle hay` counts the positions of `hay`
(including the end position) at which `needle` occurs as a contiguous
sub-list. -/
def countOcc (needle : List Char) : List Char → Nat
  | [] => if needle = [] then 1 else 0
  | c :: rest =>
    (if needle.isPrefixOf (c :: rest) then 1 else 0) + countOcc needle rest

/-- Replace the first (leftmost) occurrence of `needle` by `repl`; the
input is returned unchanged when `needle` does not occur. -/
def replaceFirst (needle repl : List Char) : List Char → List Char
  | [] => if needle = [] then repl else []
  | c :: rest =>
    if needle.isPrefixOf (c :: rest) then repl ++ (c :: rest).drop needle.length
    else c :: replaceFirst needle repl rest

/-- Modelled from the spec: §3 `EditOperation` — kind search-replace (exact
search text plus replacement) or full-replace (complete new source).  The
repository snapshot does not include the API route that produces or
consumes these operations. -/
inductive EditOperation where
  | searchReplace (search repl : List Char)
  | fullReplace (source : List Char)
deriving DecidableEq, Repr

/-- Result of the edit reconciler: the new source, or `inapplicable` naming
the offending operation index. -/
inductive ApplyResult where
  | ok (newSource : List Char)
  | inapplicable (opIndex : Nat)
deriving DecidableEq, Repr

/-- Modelled from the spec: §4.4 — one step of the edit reconciler.  A
search-replace operation applies only when its search text occurs exactly
once in the current source; full-replace ignores the current source. -/
def applyOp (source : List Char) : EditOperation → Option (List Char)
  | .fullReplace s => some s
  | .searchReplace search repl =>
    if countOcc search source = 1 then some (replaceFirst search repl source)
    else none

/-- Modelled from the spec: §4.4 `applyEdits` (the edit reconciler in the
absent `src/app/api/generate/route.ts`) — operations apply sequentially
against the progressively-updated source; the first mismatching
search-replace operation aborts with `inapplicable` naming its index. -/
def applyEditsFrom (source : List Char) (idx : Nat) :
    List EditOperation → ApplyResult
  | [] => .ok source
  | op :: rest =>
    match applyOp source op with
    | some next => applyEditsFrom next (idx + 1) rest
    | none => .inapplicable idx

/-- Modelled from the spec: §4.4 `applyEdits(currentSource, operations)`. -/
def applyEdits (source : List Char) (ops : List EditOperation) : ApplyResult :=
  applyEditsFrom source 0 ops

/-- The source reached just before operation `n`, provided every earlier
operation applied successfully; `none` if some earlier operation failed. -/
def sourceBefore (source : List Char) : List EditOperation → Nat → Option (List Char)
  | _, 0 => some source
  | [], _ + 1 => some source
  | op :: rest, n + 1 =>
    match applyOp source op with
    | some next => sourceBefore next rest n
    | none => none

/-- Manual ordered substitution: fold each (search, replacement) pair over
the source by leftmost replacement, in order. -/
def manualSubstitution (source : List Char) (ops : List (List Char × List Char)) :
    List Char :=
  ops.foldl (fun s p => replaceFirst p.1 p.2 s) source

/-- Decidable statement that a sequence of search-replace pairs is coherent
for the evolving source: each search text occurs exactly once in the source
as updated by the previous pairs. -/
def pairsApplicable (source : List Char) : List (List Char × List Char) → Bool
  | [] => true
  | p :: rest =>
    countOcc p.1 source = 1 && pairsApplicable (replaceFirst p.1 p.2 source) rest

theorem applyEditsFrom_fail (ops : List EditOperation) :
    ∀ (source mid : List Char) (base i : Nat) (s r : List Char),
      sourceBefore source ops i = some mid →
      ops.get? i = some (.searchReplace s r) →
      countOcc s mid ≠ 1 →
      applyEditsFrom source base ops = .inapplicable (base + i) := by
  induction ops with
  | nil =>
    intro source mid base i s r _ hget _
    simp [List.get?] at hget
  | cons op rest ih =>
    intro source mid base i s r hbefore hget hcount
    cases i with
    | zero =>
      simp [sourceBefore] at hbefore
      simp [List.get?] at hget
      subst hget
      subst hbefore
      simp [applyEditsFrom, applyOp, hcount]
    | succ n =>
      simp only [List.get?] at hget
      simp only [sourceBefore] at hbefore
      cases hstep : applyOp source op with
      | none => rw [hstep] at hbefore; exact absurd hbefore (by simp)
      | some next =>
        rw [hstep] at hbefore
        have := ih next mid (base + 1) n s r hbefore hget hcount
        simp only [applyEditsFrom, hstep]
        rw [this]
        have : base + 1 + n = base + (n + 1) := by omega
        rw [this]

theorem applyEditsFrom_ok (pairs : List (List Char × List Char)) :
    ∀ (source : List Char) (base : Nat),
      pairsApplicable source pairs = true →
      applyEditsFrom source base
          (pairs.map (fun p => EditOperation.searchReplace p.1 p.2)) =
        .ok (manualSubstitution source pairs) := by
  induction pairs with
  | nil => intro source base _; rfl
  | cons p rest ih =>
    intro source base happ
    simp only [pairsApplicable, Bool.and_eq_true, decide_eq_true_eq] at happ
    simp only [List.map, applyEditsFrom, applyOp, happ.1, if_pos]
    rw [ih (replaceFirst p.1 p.2 source) (base + 1) happ.2]
    rfl

/-- Outcome of one generation-plus-compile attempt, as observed by the
correction supervisor: a compiled artifact, or a failure
(`CompileError`/`RuntimeError`/`Inapplicable`) carried as its message. -/
inductive GenResult (A E : Type) where
  | ok (artifact : A)
  | err (failure : E)
deriving DecidableEq, Repr

/-- Terminal state of a turn under the correction supervisor. -/
inductive TurnResult (A E : Type) where
  | success (artifact : A)
  | gaveUp (lastError : E)
deriving DecidableEq, Repr

/-- What a finished turn looks like: its terminal state, the number of
automatic retry generations spent, and the artifact left installed. -/
structure TurnOutcome (A E : Type) where
  result : TurnResult A E
  retries : Nat
  installed : Option A
deriving DecidableEq, Repr

/-- Modelled from the spec: §4.7 Correction Supervisor (the auto-correction
loop of the absent `src/app/generate/page.tsx`).  `attempts` is the oracle
of generation outcomes, indexed by attempt number; `counter` is the
per-turn `CorrectionAttemptCounter`.  On failure with `counter < 3` the
counter is incremented and generation re-entered; at 3 the supervisor gives
up, surfacing the last error and keeping `lastGood` installed. -/
def superviseFrom {A E : Type} (attempts : Nat → GenResult A E)
    (lastGood : Option A) (idx counter : Nat) : TurnOutcome A E :=
  match attempts idx with
  | .ok a => ⟨.success a, counter, some a⟩
  | .err e =>
    if h : counter < 3 then superviseFrom attempts lastGood (idx + 1) (counter + 1)
    else ⟨.gaveUp e, counter, lastGood⟩
termination_by 3 - counter
decreasing_by omega

/-- Modelled from the spec: one user turn — the counter is reset at turn
start (§3 `CorrectionAttemptCounter`), the initial generation is attempt 0,
and each failure consumes the retry budget. -/
def runTurn {A E : Type} (attempts : Nat → GenResult A E)
    (lastGood : Option A) : TurnOutcome A E :=
  superviseFrom attempts lastGood 0 0

theorem superviseFrom_spec {A E : Type} (attempts : Nat → GenResult A E)
    (lastGood : Option A) :
    ∀ (fuel counter idx : Nat), counter + fuel = 3 →
      (superviseFrom attempts lastGood idx counter).retries ≤ 3 ∧
      ((∃ a, (superviseFrom attempts lastGood idx counter).result = .success a ∧
          (superviseFrom attempts lastGood idx counter).installed = some a) ∨
        (∃ e, (superviseFrom attempts lastGood idx counter).result = .gaveUp e ∧
          (superviseFrom attempts lastGood idx counter).installed = lastGood ∧
          attempts (idx + (3 - counter)) = .err e ∧
          (superviseFrom attempts lastGood idx counter).retries = 3)) := by
  intro fuel
  induction fuel with
  | zero =>
    intro counter idx hc
    have hc3 : counter = 3 := by omega
    subst hc3
    rw [superviseFrom]
    cases hA : attempts idx with
    | ok a =>
      dsimp only
      exact ⟨by omega, Or.inl ⟨a, rfl, rfl⟩⟩
    | err e =>
      dsimp only
      rw [dif_neg (by omega : ¬(3 : Nat) < 3)]
      refine ⟨Nat.le_refl 3, Or.inr ⟨e, rfl, rfl, ?_, rfl⟩⟩
      rw [show idx + (3 - 3) = idx from by omega]
      exact hA
  | succ n ih =>
    intro counter idx hc
    rw [superviseFrom]
    cases hA : attempts idx with
    | ok a =>
      dsimp only
      exact ⟨by omega, Or.inl ⟨a, rfl, rfl⟩⟩
    | err e =>
      dsimp only
      rw [dif_pos (by omega : counter < 3)]
      have := ih (counter + 1) (idx + 1) (by omega)
      rw [show idx + 1 + (3 - (counter + 1)) = idx + (3 - counter) from by omega] at this
      exact this

/-- Result of the prompt validator (§4.1): a classification plus the
user-facing reason used when the prompt is rejected. -/
structure ValidationResult where
  valid : Bool
  reason : List Char
deriving DecidableEq, Repr

/-- The external calls a turn can make, in pipeline order. -/
inductive PipelineCall where
  | validatorCall
  | skillSelectorCall
  | sourceGeneratorCall
deriving DecidableEq, Repr

/-- Observable shape of one finished turn: which external calls were made
and the user-facing message. -/
structure TurnTrace where
  calls : List PipelineCall
  userMessage : List Char
deriving DecidableEq, Repr

/-- Modelled from the spec: §4.1 and the §8 cold-start scenario — the turn
orchestration of the absent API route `src/app/api/generate/route.ts`.  The
validator gates the skill selector, which gates the source generator; an
invalid prompt terminates the turn with the validator's reason as the
user-facing message. -/
def gatedTurn (v : ValidationResult) (generatedMessage : List Char) : TurnTrace :=
  if v.valid then
    ⟨[.validatorCall, .skillSelectorCall, .sourceGeneratorCall], generatedMessage⟩
  else
    ⟨[.validatorCall], v.reason⟩

/-- Outcome of a cold-start streaming generation: the append-only display
buffer, the artifact left installed, and whether that artifact came from
this stream. -/
structure StreamOutcome (A : Type) where
  displayed : List Char
  installed : Option A
  installedFromStream : Bool
deriving Repr

/-- Modelled from the spec: §4.3 cold start and §5 — the streaming loop of
the absent generation client.  Deltas are consumed strictly in order into
the display buffer; `cancelBudget = some n` means cancellation is observed
after `n` further deltas, stopping the stream with no artifact installed
from it; an uncancelled stream that ends compiles the accumulated text and
installs the resulting artifact. -/
def consumeStream {A : Type} (compile : List Char → Option A) (prev : Option A) :
    List (List Char) → Option Nat → List Char → StreamOutcome A
  | _, some 0, acc => ⟨acc, prev, false⟩
  | [], _, acc =>
    match compile acc with
    | some a => ⟨acc, some a, true⟩
    | none => ⟨acc, prev, false⟩
  | d :: rest, some (n + 1), acc => consumeStream compile prev rest (some n) (acc ++ d)
  | d :: rest, none, acc => consumeStream compile prev rest none (acc ++ d)

/-- Modelled from the spec: a whole cold-start generation run, starting
from an empty display buffer. -/
def runColdStart {A : Type} (compile : List Char → Option A) (prev : Option A)
    (deltas : List (List Char)) (cancelBudget : Option Nat) : StreamOutcome A :=
  consumeStream compile prev deltas cancelBudget []

theorem consumeStream_cancelled {A : Type} (compile : List Char → Option A)
    (prev : Option A) :
    ∀ (deltas : List (List Char)) (n : Nat) (acc : List Char),
      n ≤ deltas.length →
      consumeStream compile prev deltas (some n) acc =
        ⟨(deltas.take n).foldl (· ++ ·) acc, prev, false⟩ := by
  intro deltas
  induction deltas with
  | nil =>
    intro n acc hn
    have : n = 0 := by simpa using hn
    subst this
    rfl
  | cons d rest ih =>
    intro n acc hn
    cases n with
    | zero => rfl
    | succ m =>
      have hm : m ≤ rest.length := by simpa using hn
      simpa [consumeStream, List.take, List.foldl] using ih m (acc ++ d) hm

/-- From `src/unnamed/part_002`:
`type StreamPhase = "idle" | "reasoning" | "generating"`. -/
inductive StreamPhase where
  | idle
  | reasoning
  | generating
deriving DecidableEq, Repr

/-- The successions of the phase signal the spec allows: remain in the
current phase or advance along idle → reasoning → generating → idle. -/
def phaseStep : StreamPhase → StreamPhase → Bool
  | .idle, .idle => true
  | .idle, .reasoning => true
  | .reasoning, .reasoning => true
  | .reasoning, .generating => true
  | .generating, .generating => true
  | .generating, .idle => true
  | _, _ => false

/-- Modelled from the spec: §4.3 cold start — the phase signal of a
streaming generation with `1 + nReason` reasoning deltas and `1 + nGen`
generating deltas: idle before the stream, reasoning, then generating, then
idle again at the end. -/
def phaseTrace (nReason nGen : Nat) : List StreamPhase :=
  .idle :: (List.replicate (nReason + 1) .reasoning ++
    (List.replicate (nGen + 1) .generating ++ [.idle]))

theorem chain'_replicate_append {α : Type} (R : α → α → Prop) (x : α)
    (l : List α) (hxx : R x x) (hxl : ∀ y ∈ l.head?, R x y)
    (hl : List.Chain' R l) : ∀ n, List.Chain' R (List.replicate n x ++ l) := by
  intro n
  induction n with
  | zero => simpa using hl
  | succ m ih =>
    rw [List.replicate_succ, List.cons_append, List.chain'_cons']
    refine ⟨?_, ih⟩
    intro y hy
    cases m with
    | zero => exact hxl y (by simpa using hy)
    | succ k =>
      rw [List.replicate_succ, List.cons_append, List.head?_cons,
        Option.mem_some_iff] at hy
      subst hy
      exact hxx

/-- Little-endian base-10 digits of `n`, with explicit fuel; any
`fuel ≥ n` computes all digits. -/
def digitsRevAux : Nat → Nat → List Nat
  | _, 0 => []
  | 0, _ + 1 => []
  | fuel + 1, n + 1 => (n + 1) % 10 :: digitsRevAux fuel ((n + 1) / 10)

/-- Little-endian base-10 digits of `n`. -/
def natDigitsRev (n : Nat) : List Nat := digitsRevAux n n

/-- Value of a little-endian digit list. -/
def fromDigits : List Nat → Nat
  | [] => 0
  | d :: ds => d + 10 * fromDigits ds

theorem digitsRevAux_sound :
    ∀ fuel n, n ≤ fuel → fromDigits (digitsRevAux fuel n) = n := by
  intro fuel
  induction fuel with
  | zero =>
    intro n hn
    have : n = 0 := by omega
    subst this
    rfl
  | succ f ih =>
    intro n hn
    cases n with
    | zero => rfl
    | succ m =>
      have hdiv : (m + 1) / 10 ≤ f := by
        have := Nat.div_lt_self (Nat.succ_pos m) (by omega : 1 < 10)
        omega
      simp only [digitsRevAux, fromDigits, ih ((m + 1) / 10) hdiv]
      omega

theorem natDigitsRev_inj {a b : Nat} (h : natDigitsRev a = natDigitsRev b) :
    a = b := by
  have ha := digitsRevAux_sound a a (Nat.le_refl a)
  have hb := digitsRevAux_sound b b (Nat.le_refl b)
  simp only [natDigitsRev] at h
  rw [← ha, h, hb]

theorem digitsRevAux_lt :
    ∀ fuel n d, d ∈ digitsRevAux fuel n → d < 10 := by
  intro fuel
  induction fuel with
  | zero =>
    intro n d hd
    cases n with
    | zero => simp [digitsRevAux] at hd
    | succ m => simp [digitsRevAux] at hd
  | succ f ih =>
    intro n d hd
    cases n with
    | zero => simp [digitsRevAux] at hd
    | succ m =>
      simp only [digitsRevAux, List.mem_cons] at hd
      rcases hd with h | h
      · subst h; exact Nat.mod_lt _ (by omega)
      · exact ih _ _ h

/-- Decimal rendering of a natural number, most-significant digit first. -/
def natToChars (n : Nat) : List Char :=
  ((natDigitsRev n).map Nat.digitChar).reverse

theorem digitChar_inj_lt :
    ∀ a, a < 10 → ∀ b, b < 10 → Nat.digitChar a = Nat.digitChar b → a = b := by
  decide

theorem map_digitChar_inj :
    ∀ (l1 l2 : List Nat), (∀ x ∈ l1, x < 10) → (∀ x ∈ l2, x < 10) →
      l1.map Nat.digitChar = l2.map Nat.digitChar → l1 = l2 := by
  intro l1
  induction l1 with
  | nil =>
    intro l2 _ _ h
    cases l2 with
    | nil => rfl
    | cons b t => simp at h
  | cons a t1 ih =>
    intro l2 h1 h2 h
    cases l2 with
    | nil => simp at h
    | cons b t2 =>
      simp only [List.map, List.cons.injEq] at h
      have hab : a = b :=
        digitChar_inj_lt a (h1 a (List.mem_cons_self a t1)) b
          (h2 b (List.mem_cons_self b t2)) h.1
      have ht : t1 = t2 :=
        ih t2 (fun x hx => h1 x (List.mem_cons_of_mem a hx))
          (fun x hx => h2 x (List.mem_cons_of_mem b hx)) h.2
      rw [hab, ht]

theorem natToChars_inj {a b : Nat} (h : natToChars a = natToChars b) : a = b := by
  rw [natToChars, natToChars, List.reverse_inj] at h
  exact natDigitsRev_inj
    (map_digitChar_inj _ _ (digitsRevAux_lt a a) (digitsRevAux_lt b b) h)

/-- The filename produced by appending numeric suffix `k` between base and
extension: `base_k ext`. -/
def candidate (base ext : List Char) (k : Nat) : List Char :=
  base ++ '_' :: (natToChars k ++ ext)

theorem candidate_inj {base ext : List Char} {k1 k2 : Nat}
    (h : candidate base ext k1 = candidate base ext k2) : k1 = k2 := by
  rw [candidate, candidate] at h
  have h1 := List.append_cancel_left h
  rw [List.cons.injEq] at h1
  exact natToChars_inj (List.append_cancel_right h1.2)

/-- Position of the last `'.'` in a name, if any (`lastIndexOf` in the
source `resolveFilename`). -/
def lastDotPos : List Char → Option Nat
  | [] => none
  | c :: rest =>
    match lastDotPos rest with
    | some i => some (i + 1)
    | none => if c = '.' then some 0 else none

/-- From `src/unnamed/part_001` `resolveFilename`: split a name into base
and extension at the last dot, treating a dot at position 0 (or no dot) as
"no extension". -/
def splitExt (name : List Char) : List Char × List Char :=
  match lastDotPos name with
  | some i => if 0 < i then (name.take i, name.drop i) else (name, [])
  | none => (name, [])

/-- From `src/unnamed/part_001` `resolveFilename`: the `while` loop — try
`base_counter ext` for increasing counters until the name is not taken.
`fuel` bounds the search; `existing.length + 1` steps always suffice. -/
def freshName (base ext : List Char) (existing : List (List Char)) :
    Nat → Nat → List Char
  | counter, 0 => candidate base ext counter
  | counter, fuel + 1 =>
    if candidate base ext counter ∈ existing then
      freshName base ext existing (counter + 1) fuel
    else candidate base ext counter

/-- From `src/unnamed/part_001` `resolveFilename(name, existing)`: keep a
fresh name unchanged; rewrite a colliding name to `base_k ext` for the
first `k = 2, 3, ...` that is fresh. -/
def resolveFilename (name : List Char) (existing : List (List Char)) : List Char :=
  if name ∈ existing then
    freshName (splitExt name).1 (splitExt name).2 existing 2 (existing.length + 1)
  else name

theorem freshName_spec (base ext : List Char) (existing : List (List Char)) :
    ∀ fuel counter,
      (∃ i, i ≤ fuel ∧ candidate base ext (counter + i) ∉ existing) →
      ∃ i, i ≤ fuel ∧
        freshName base ext existing counter fuel = candidate base ext (counter + i) ∧
        candidate base ext (counter + i) ∉ existing ∧
        ∀ j, j < i → candidate base ext (counter + j) ∈ existing := by
  intro fuel
  induction fuel with
  | zero =>
    intro counter h
    obtain ⟨i, hi, hfresh⟩ := h
    have : i = 0 := by omega
    subst this
    exact ⟨0, Nat.le_refl 0, rfl, hfresh, fun j hj => absurd hj (by omega)⟩
  | succ f ih =>
    intro counter h
    by_cases hc : candidate base ext counter ∈ existing
    · obtain ⟨i, hi, hfresh⟩ := h
      cases i with
      | zero => exact absurd hc (by simpa using hfresh)
      | succ i0 =>
        have hrec : ∃ i, i ≤ f ∧ candidate base ext (counter + 1 + i) ∉ existing := by
          refine ⟨i0, by omega, ?_⟩
          rw [show counter + 1 + i0 = counter + (i0 + 1) from by omega]
          exact hfresh
        obtain ⟨i1, hi1, heq, hfr, hmin⟩ := ih (counter + 1) hrec
        refine ⟨i1 + 1, by omega, ?_, ?_, ?_⟩
        · rw [freshName, if_pos hc, heq,
            show counter + 1 + i1 = counter + (i1 + 1) from by omega]
        · rw [show counter + (i1 + 1) = counter + 1 + i1 from by omega]
          exact hfr
        · intro j hj
          cases j with
          | zero => simpa using hc
          | succ j0 =>
            rw [show counter + (j0 + 1) = counter + 1 + j0 from by omega]
            exact hmin j0 (by omega)
    · exact ⟨0, by omega, by rw [freshName, if_neg hc, Nat.add_zero],
        by simpa using hc, fun j hj => absurd hj (by omega)⟩

theorem candidate_fresh_exists (base ext : List Char) (existing : List (List Char)) :
    ∃ i, i ≤ existing.length ∧ candidate base ext (2 + i) ∉ existing := by
  by_contra hcon
  push_neg at hcon
  have hall : ∀ i ≤ existing.length, candidate base ext (2 + i) ∈ existing := hcon
  set C : List (List Char) :=
    (List.range (existing.length + 1)).map (fun i => candidate base ext (2 + i)) with hC
  have hinj : Function.Injective (fun i => candidate base ext (2 + i)) := by
    intro a b hab
    have := candidate_inj hab
    omega
  have hnodup : C.Nodup := (List.nodup_range _).map hinj
  have hsub : ∀ x ∈ C, x ∈ existing := by
    intro x hx
    rw [hC, List.mem_map] at hx
    obtain ⟨i, hi, rfl⟩ := hx
    exact hall i (by simpa using Nat.lt_succ_iff.mp (List.mem_range.mp hi))
  have hlen : C.length = existing.length + 1 := by
    rw [hC, List.length_map, List.length_range]
  have hcard1 : C.toFinset.card = existing.length + 1 := by
    rw [List.toFinset_card_of_nodup hnodup, hlen]
  have hcard2 : C.toFinset.card ≤ existing.toFinset.card := by
    apply Finset.card_le_card
    intro x hx
    rw [List.mem_toFinset] at hx ⊢
    exact hsub x hx
  have hcard3 : existing.toFinset.card ≤ existing.length := existing.toFinset_card_le
  omega

theorem resolveFilename_spec (name : List Char) (existing : List (List Char)) :
    resolveFilename name existing ∉ existing ∧
    (name ∉ existing → resolveFilename name existing = name) ∧
    (name ∈ existing → ∃ k, 2 ≤ k ∧
      resolveFilename name existing =
        candidate (splitExt name).1 (splitExt name).2 k ∧
      ∀ j, 2 ≤ j → j < k →
        candidate (splitExt name).1 (splitExt name).2 j ∈ existing) := by
  by_cases hmem : name ∈ existing
  · obtain ⟨i, hi, hfresh⟩ :=
      candidate_fresh_exists (splitExt name).1 (splitExt name).2 existing
    have hex : ∃ i, i ≤ existing.length + 1 ∧
        candidate (splitExt name).1 (splitExt name).2 (2 + i) ∉ existing :=
      ⟨i, by omega, hfresh⟩
    obtain ⟨i1, _, heq, hfr, hmin⟩ :=
      freshName_spec (splitExt name).1 (splitExt name).2 existing
        (existing.length + 1) 2 hex
    have hres : resolveFilename name existing =
        candidate (splitExt name).1 (splitExt name).2 (2 + i1) := by
      rw [resolveFilename, if_pos hmem, heq]
    refine ⟨by rw [hres]; exact hfr, fun hn => absurd hmem hn, fun _ => ?_⟩
    refine ⟨2 + i1, by omega, hres, ?_⟩
    intro j h2j hji
    have := hmin (j - 2) (by omega)
    rw [show 2 + (j - 2) = j from by omega] at this
    exact this
  · rw [resolveFilename, if_neg hmem]
    exact ⟨hmem, fun _ => rfl, fun h => absurd h hmem⟩

/-- The media kinds of `classifyFileType` in `src/unnamed/part_001`. -/
inductive FileType where
  | image
  | video
  | audio
deriving DecidableEq, Repr

/-- An input file: name, mime type, size. -/
structure MFile where
  name : List Char
  mimeType : List Char
  size : Nat
deriving DecidableEq, Repr

/-- From `src/unnamed/part_001` `classifyFileType`: image/video/audio by
mime-type prefix; any other mime type is not a media file. -/
def classifyFileType (mimeType : List Char) : Option FileType :=
  if "image/".toList.isPrefixOf mimeType then some .image
  else if "video/".toList.isPrefixOf mimeType then some .video
  else if "audio/".toList.isPrefixOf mimeType then some .audio
  else none

/-- From `src/unnamed/part_001` `MediaAsset` (the `type` field is named
`ftype` here); the blob URL is modelled as the allocation number handed out
by `URL.createObjectURL`. -/
structure MediaAsset where
  name : List Char
  originalName : List Char
  ftype : FileType
  mimeType : List Char
  blobUrl : Nat
  size : Nat
deriving DecidableEq, Repr

/-- From `src/unnamed/part_001` `addFiles`, inner loop: skip non-media
files, resolve each media file's name against the names seen so far, create
a fresh blob URL, and collect the new assets in order. -/
def addFilesGo (existingNames : List (List Char)) (nextUrl : Nat) :
    List MFile → List MediaAsset
  | [] => []
  | f :: rest =>
    match classifyFileType f.mimeType with
    | none => addFilesGo existingNames nextUrl rest
    | some ft =>
      ⟨resolveFilename f.name existingNames, f.name, ft, f.mimeType, nextUrl, f.size⟩ ::
        addFilesGo (resolveFilename f.name existingNames :: existingNames)
          (nextUrl + 1) rest

/-- State of the media-assets store of `src/unnamed/part_001`
`useMediaAssets`: the asset list, the created blob URLs (`blobUrlsRef`),
the allocator for fresh blob URLs, and the URLs revoked so far. -/
structure AssetStore where
  assetList : List MediaAsset
  blobUrls : List Nat
  nextUrl : Nat
  revoked : List Nat
deriving DecidableEq, Repr

/-- From `src/unnamed/part_001` `addFiles`: append the new assets to the
asset list and remember their blob URLs. -/
def addFilesStore (st : AssetStore) (files : List MFile) : AssetStore :=
  ⟨st.assetList ++ addFilesGo (st.assetList.map (fun a => a.name)) st.nextUrl files,
    st.blobUrls ++
      (addFilesGo (st.assetList.map (fun a => a.name)) st.nextUrl files).map
        (fun a => a.blobUrl),
    st.nextUrl +
      (addFilesGo (st.assetList.map (fun a => a.name)) st.nextUrl files).length,
    st.revoked⟩

/-- From `src/unnamed/part_001` `clearAll`: revoke every created blob URL
and clear the map. -/
def clearAllStore (st : AssetStore) : AssetStore :=
  ⟨[], [], st.nextUrl, st.revoked ++ st.blobUrls⟩

/-- The operations that can reach the asset store: the two mutators of the
hook, and any pipeline operation (generation, edit application,
compilation, retry). -/
inductive StoreOp where
  | addFiles (files : List MFile)
  | clearAll
  | pipelineOp
deriving DecidableEq, Repr

/-- Modelled from the spec for the `pipelineOp` arm only (§6: the core
consults the filename → resource map read-only and never mutates it); the
other two arms are the source's `addFiles` and `clearAll`. -/
def applyStoreOp (st : AssetStore) : StoreOp → AssetStore
  | .addFiles fs => addFilesStore st fs
  | .clearAll => clearAllStore st
  | .pipelineOp => st

/-- Run a sequence of store operations in order. -/
def runStoreOps (st : AssetStore) : List StoreOp → AssetStore
  | [] => st
  | op :: rest => runStoreOps (applyStoreOp st op) rest

theorem addFilesGo_fresh :
    ∀ (files : List MFile) (en : List (List Char)) (u : Nat),
      (∀ a ∈ addFilesGo en u files, a.name ∉ en) ∧
      ((addFilesGo en u files).map (fun a => a.name)).Nodup := by
  intro files
  induction files with
  | nil => intro en u; exact ⟨by simp [addFilesGo], by simp [addFilesGo]⟩
  | cons f rest ih =>
    intro en u
    cases hcf : classifyFileType f.mimeType with
    | none =>
      constructor
      · intro a ha
        rw [addFilesGo, hcf] at ha
        exact (ih en u).1 a ha
      · rw [addFilesGo, hcf]
        exact (ih en u).2
    | some ft =>
      have hres := (resolveFilename_spec f.name en).1
      have htail := ih (resolveFilename f.name en :: en) (u + 1)
      constructor
      · intro a ha
        rw [addFilesGo, hcf, List.mem_cons] at ha
        rcases ha with rfl | ha
        · exact hres
        · intro hmem
          exact htail.1 a ha (List.mem_cons_of_mem _ hmem)
      · rw [addFilesGo, hcf]
        simp only [List.map, List.nodup_cons]
        constructor
        · intro hmem
          rw [List.mem_map] at hmem
          obtain ⟨a, ha, hname⟩ := hmem
          exact htail.1 a ha (by rw [hname]; exact List.mem_cons_self _ _)
        · exact htail.2

theorem addFilesGo_skips :
    ∀ (files : List MFile) (en : List (List Char)) (u : Nat),
      (addFilesGo en u files).map (fun a => a.originalName) =
        (files.filter (fun f => (classifyFileType f.mimeType).isSome)).map
          (fun f => f.name) := by
  intro files
  induction files with
  | nil => intro en u; rfl
  | cons f rest ih =>
    intro en u
    cases hcf : classifyFileType f.mimeType with
    | none => simp [addFilesGo, hcf, List.filter, ih]
    | some ft => simp [addFilesGo, hcf, List.filter, ih]

theorem addFilesGo_form :
    ∀ (files : List MFile) (en : List (List Char)) (u : Nat),
      ∀ a ∈ addFilesGo en u files,
        a.name = a.originalName ∨
        ∃ k, 2 ≤ k ∧
          a.name = candidate (splitExt a.originalName).1 (splitExt a.originalName).2 k := by
  intro files
  induction files with
  | nil => intro en u a ha; simp [addFilesGo] at ha
  | cons f rest ih =>
    intro en u a ha
    cases hcf : classifyFileType f.mimeType with
    | none =>
      rw [addFilesGo, hcf] at ha
      exact ih en u a ha
    | some ft =>
      rw [addFilesGo, hcf, List.mem_cons] at ha
      rcases ha with rfl | ha
      · by_cases hmem : f.name ∈ en
        · obtain ⟨k, hk2, hkeq, _⟩ := ((resolveFilename_spec f.name en).2.2) hmem
          exact Or.inr ⟨k, hk2, hkeq⟩
        · exact Or.inl (((resolveFilename_spec f.name en).2.1) hmem)
      · exact ih _ _ a ha

/-- From `src/src/hooks/useMediaAttachments.ts`: the attachment limits. -/
def MAX_ATTACHED_FILES : Nat := 10

/-- From `src/src/hooks/useMediaAttachments.ts`: 10MB image limit. -/
def MAX_IMAGE_SIZE_BYTES : Nat := 10 * 1024 * 1024

/-- From `src/src/hooks/useMediaAttachments.ts`: 200MB video limit. -/
def MAX_VIDEO_SIZE_BYTES : Nat := 200 * 1024 * 1024

/-- From `src/src/hooks/useMediaAttachments.ts`: 50MB audio limit. -/
def MAX_AUDIO_SIZE_BYTES : Nat := 50 * 1024 * 1024

/-- From `src/src/hooks/useMediaAttachments.ts` `isMediaFile`. -/
def isMediaFile (f : MFile) : Bool :=
  "image/".toList.isPrefixOf f.mimeType ||
    "video/".toList.isPrefixOf f.mimeType ||
    "audio/".toList.isPrefixOf f.mimeType

/-- From `src/src/hooks/useMediaAttachments.ts` `getMaxSizeForType`:
video and audio have their own limits, everything else gets the image
limit. -/
def getMaxSizeForType (mimeType : List Char) : Nat :=
  if "video/".toList.isPrefixOf mimeType then MAX_VIDEO_SIZE_BYTES
  else if "audio/".toList.isPrefixOf mimeType then MAX_AUDIO_SIZE_BYTES
  else MAX_IMAGE_SIZE_BYTES

/-- From `src/src/hooks/useMediaAttachments.ts` `formatSize`; JavaScript's
`Math.round(bytes / u)` is exact here because `u` is a power of two, and
equals `(2 * bytes + u) / (2 * u)` in integer arithmetic. -/
def formatSize (bytes : Nat) : List Char :=
  if 1024 * 1024 ≤ bytes then
    natToChars ((2 * bytes + 1024 * 1024) / (2 * (1024 * 1024))) ++ "MB".toList
  else natToChars ((2 * bytes + 1024) / (2 * 1024)) ++ "KB".toList

/-- From `src/src/hooks/useMediaAttachments.ts` `getFileType`. -/
def getFileType (mimeType : List Char) : FileType :=
  if "video/".toList.isPrefixOf mimeType then .video
  else if "audio/".toList.isPrefixOf mimeType then .audio
  else .image

/-- From `src/src/hooks/useMediaAttachments.ts` `AttachedFile` (the `type`
field is named `ftype` here; `base64` is modelled by whether it is
populated, which the code does exactly for images). -/
structure AttachedFile where
  name : List Char
  ftype : FileType
  mimeType : List Char
  size : Nat
  hasBase64 : Bool
deriving DecidableEq, Repr

/-- From `src/src/hooks/useMediaAttachments.ts` `processFiles`, per-file
body: build the attachment, populating base64 only for images. -/
def toAttachment (f : MFile) : AttachedFile :=
  ⟨f.name, getFileType f.mimeType, f.mimeType, f.size,
    decide (getFileType f.mimeType = FileType.image)⟩

/-- From `src/src/hooks/useMediaAttachments.ts` `filterValidFiles`, one
oversized entry: `` `${file.name} (max ${formatSize(maxSize)})` ``. -/
def oversizedDescriptor (f : MFile) : List Char :=
  f.name ++ " (max ".toList ++ formatSize (getMaxSizeForType f.mimeType) ++ ")".toList

/-- From `src/src/hooks/useMediaAttachments.ts` `filterValidFiles`: split
the batch into files within their per-type size limit and the descriptors
of the oversized ones, preserving order. -/
def filterValidFiles : List MFile → List MFile × List (List Char)
  | [] => ([], [])
  | f :: rest =>
    let vo := filterValidFiles rest
    if getMaxSizeForType f.mimeType < f.size then (vo.1, oversizedDescriptor f :: vo.2)
    else (f :: vo.1, vo.2)

/-- From `src/src/hooks/useMediaAttachments.ts` `filterValidFiles`: the
error message set when some files are oversized. -/
def tooLargeMessage (descriptors : List (List Char)) : List Char :=
  (if descriptors.length = 1 then "File too large: ".toList
    else "Files too large: ".toList) ++
    (List.intersperse ", ".toList descriptors).flatten

/-- From `src/src/hooks/useMediaAttachments.ts` `processFiles`: keep the
media files, drop and report the oversized ones, attach the rest, and
truncate the combined list to `MAX_ATTACHED_FILES`; when no file survives
the filters, the attached list is untouched. -/
def processFiles (prev : List AttachedFile) (files : List MFile) :
    List AttachedFile × Option (List Char) :=
  let vo := filterValidFiles (files.filter isMediaFile)
  let errMsg := if vo.2 = [] then none else some (tooLargeMessage vo.2)
  if vo.1 = [] then (prev, errMsg)
  else ((prev ++ vo.1.map toAttachment).take MAX_ATTACHED_FILES, errMsg)

/-- From `src/src/hooks/useMediaAttachments.ts` `addImageFromBase64`: the
synthetic frame capture attachment. -/
def frameCaptureAttachment : AttachedFile :=
  ⟨"frame-capture.jpg".toList, .image, "image/jpeg".toList, 0, true⟩

/-- From `src/src/hooks/useMediaAttachments.ts` `addImageFromBase64`. -/
def addImageFromBase64 (prev : List AttachedFile) : List AttachedFile :=
  (prev ++ [frameCaptureAttachment]).take MAX_ATTACHED_FILES

/-- From `src/src/hooks/useMediaAttachments.ts` `useMediaAttachments`:
`canAddMore: attachedFiles.length < MAX_ATTACHED_FILES`. -/
def canAddMore (attached : List AttachedFile) : Bool :=
  attached.length < MAX_ATTACHED_FILES

theorem filterValidFiles_valid :
    ∀ (l : List MFile) (f : MFile), f ∈ (filterValidFiles l).1 →
      f ∈ l ∧ f.size ≤ getMaxSizeForType f.mimeType := by
  intro l
  induction l with
  | nil => intro f hf; simp [filterValidFiles] at hf
  | cons g rest ih =>
    intro f hf
    rw [filterValidFiles] at hf
    by_cases hg : getMaxSizeForType g.mimeType < g.size
    · rw [if_pos hg] at hf
      obtain ⟨hmem, hsize⟩ := ih f hf
      exact ⟨List.mem_cons_of_mem g hmem, hsize⟩
    · rw [if_neg hg] at hf
      rcases List.mem_cons.mp hf with rfl | hf2
      · exact ⟨List.mem_cons_self f rest, by omega⟩
      · obtain ⟨hmem, hsize⟩ := ih f hf2
        exact ⟨List.mem_cons_of_mem g hmem, hsize⟩

theorem filterValidFiles_oversized :
    ∀ (l : List MFile) (f : MFile), f ∈ l →
      getMaxSizeForType f.mimeType < f.size →
      oversizedDescriptor f ∈ (filterValidFiles l).2 := by
  intro l
  induction l with
  | nil => intro f hf; simp at hf
  | cons g rest ih =>
    intro f hf hbig
    rw [filterValidFiles]
    rcases List.mem_cons.mp hf with rfl | hf2
    · rw [if_pos hbig]
      exact List.mem_cons_self _ _
    · by_cases hg : getMaxSizeForType g.mimeType < g.size
      · rw [if_pos hg]
        exact List.mem_cons_of_mem _ (ih f hf2 hbig)
      · rw [if_neg hg]
        exact ih f hf2 hbig

theorem mem_intersperse_of_mem (s : List Char) :
    ∀ (l : List (List Char)) (x : List Char), x ∈ l → x ∈ List.intersperse s l := by
  intro l
  induction l with
  | nil => intro x hx; simp at hx
  | cons a t ih =>
    intro x hx
    cases t with
    | nil => simpa using hx
    | cons b t2 =>
      rw [List.intersperse_cons_cons]
      rcases List.mem_cons.mp hx with rfl | hx2
      · exact List.mem_cons_self _ _
      · exact List.mem_cons_of_mem _ (List.mem_cons_of_mem _ (ih x hx2))

theorem name_infix_tooLargeMessage (f : MFile) (descriptors : List (List Char))
    (hmem : oversizedDescriptor f ∈ descriptors) :
    f.name <:+: tooLargeMessage descriptors := by
  have h1 : f.name <+: oversizedDescriptor f := by
    refine ⟨" (max ".toList ++ formatSize (getMaxSizeForType f.mimeType) ++
      ")".toList, ?_⟩
    simp [oversizedDescriptor, List.append_assoc]
  have h2 := mem_intersperse_of_mem ", ".toList descriptors
    (oversizedDescriptor f) hmem
  have h3 := List.infix_of_mem_flatten h2
  have h4 : (List.intersperse ", ".toList descriptors).flatten <:+:
      tooLargeMessage descriptors := by
    refine List.IsSuffix.isInfix ?_
    exact ⟨_, rfl⟩
  exact h1.isInfix.trans (h3.trans h4)

/-- A code-fence style in raw generator output (e.g. the two common fence
characters); the sanitizer's behaviour must not depend on it. -/
inductive FenceStyle where
  | backtickFence
  | tildeFence
deriving DecidableEq, Repr

/-- Modelled from the spec: §4.5 — a line of raw generator output, at the
granularity the sanitizer distinguishes: fence markers, declarative
import/module statements, the line starting a recognizable component
definition, other code lines, and narrative prose. -/
inductive Line where
  | fenceMarker (style : FenceStyle)
  | moduleStmt (text : List Char)
  | componentDef (text : List Char)
  | codeLine (text : List Char)
  | proseLine (text : List Char)
deriving DecidableEq, Repr

/-- Whether a line is a code-fence marker. -/
def isFence : Line → Bool
  | .fenceMarker _ => true
  | _ => false

/-- Whether a line is a declarative import/module statement. -/
def isModuleStmt : Line → Bool
  | .moduleStmt _ => true
  | _ => false

/-- Whether a line starts a recognizable component definition. -/
def isComponentStart : Line → Bool
  | .componentDef _ => true
  | _ => false

/-- Modelled from the spec: §4.5 — when the raw output contains a code
fence, restrict attention to the contents of the first fenced block (up to
the closing marker, or to the end on truncation); otherwise keep the
whole output. -/
def extractFenced (lines : List Line) : List Line :=
  if lines.any isFence then
    ((lines.dropWhile (fun l => !isFence l)).drop 1).takeWhile (fun l => !isFence l)
  else lines

/-- Modelled from the spec: §4.5 — strip declarative import/module
statements (the capability scope supplies equivalent bindings). -/
def stripImports (lines : List Line) : List Line :=
  lines.filter (fun l => !isModuleStmt l)

/-- Result of the sanitizer: the extracted component body, or the
`NoComponentFound` failure. -/
inductive SanitizeResult where
  | ok (body : List Line)
  | noComponentFound
deriving DecidableEq, Repr

/-- Modelled from the spec: §4.5 `sanitize(rawSource)` (the sanitizer of
the absent `src/remotion/compiler.ts`): take the fenced content, strip
import/module statements, and return everything from the first recognizable
component definition on; fail with `NoComponentFound` when no such
definition exists. -/
def sanitize (raw : List Line) : SanitizeResult :=
  if ((stripImports (extractFenced raw)).dropWhile
      (fun l => !isComponentStart l)).isEmpty then
    .noComponentFound
  else
    .ok ((stripImports (extractFenced raw)).dropWhile
      (fun l => !isComponentStart l))

theorem dropWhile_append_of_all {α : Type} (p : α → Bool) :
    ∀ (xs ys : List α), (∀ x ∈ xs, p x = true) →
      List.dropWhile p (xs ++ ys) = List.dropWhile p ys := by
  intro xs
  induction xs with
  | nil => intro ys _; rfl
  | cons a t ih =>
    intro ys h
    rw [List.cons_append, List.dropWhile_cons_of_pos (h a (List.mem_cons_self a t))]
    exact ih ys fun x hx => h x (List.mem_cons_of_mem a hx)

theorem takeWhile_append_of_all {α : Type} (p : α → Bool) :
    ∀ (xs : List α) (y : α) (ys : List α), (∀ x ∈ xs, p x = true) →
      p y = false → List.takeWhile p (xs ++ y :: ys) = xs := by
  intro xs
  induction xs with
  | nil =>
    intro y ys _ hy
    rw [List.nil_append, List.takeWhile_cons_of_neg (by simp [hy])]
  | cons a t ih =>
    intro y ys h hy
    rw [List.cons_append, List.takeWhile_cons_of_pos (h a (List.mem_cons_self a t))]
    rw [ih y ys (fun x hx => h x (List.mem_cons_of_mem a hx)) hy]

theorem stripImports_of_moduleStmts :
    ∀ (imps : List (List Char)),
      stripImports (imps.map Line.moduleStmt) = [] := by
  intro imps
  induction imps with
  | nil => rfl
  | cons i t ih =>
    simp only [List.map, stripImports, List.filter, isModuleStmt, Bool.not_true]
    simp only [stripImports] at ih
    exact ih

theorem sanitize_content_subset (raw : List Line) :
    ∀ l ∈ stripImports (extractFenced raw), l ∈ raw := by
  intro l hl
  have h1 : stripImports (extractFenced raw) ⊆ extractFenced raw :=
    (List.filter_sublist _).subset
  have h2 : extractFenced raw ⊆ raw := by
    rw [extractFenced]
    by_cases hany : raw.any isFence
    · rw [if_pos hany]
      intro x hx
      have s1 := List.takeWhile_sublist
        (l := (raw.dropWhile (fun l => !isFence l)).drop 1)
        (fun l => !isFence l)
      have s2 := List.drop_sublist 1 (raw.dropWhile (fun l => !isFence l))
      have s3 := List.dropWhile_sublist (l := raw) (fun l => !isFence l)
      exact (s1.trans (s2.trans s3)).subset hx
    · rw [if_neg hany]
      exact fun x hx => hx
  exact h2 (h1 hl)

end Pipeline

/-- C1: if every operation before index `i` applies successfully, yielding
the progressively-updated source `mid`, and operation `i` is a
search-replace whose search text occurs zero or two-or-more times in `mid`,
then `applyEdits` returns `inapplicable i` — naming the offending
operation's index, producing no updated source (the input, a pure value, is
unmutated), and never resolving the mismatch by picking an occurrence. -/
theorem C1_mismatch_yields_inapplicable (source mid : List Char)
    (ops : List Pipeline.EditOperation) (i : Nat) (s r : List Char)
    (hbefore : Pipeline.sourceBefore source ops i = some mid)
    (hget : ops.get? i = some (.searchReplace s r))
    (hcount : Pipeline.countOcc s mid ≠ 1) :
    Pipeline.applyEdits source ops = .inapplicable i := by
  have := Pipeline.applyEditsFrom_fail ops source mid 0 i s r hbefore hget hcount
  simpa [Pipeline.applyEdits] using this

/-- Witness for C1 at a concrete input: source "ab", a single search-replace
looking for "c" (zero occurrences). -/
theorem C1_mismatch_yields_inapplicable_witness :
    Pipeline.applyEdits ['a', 'b']
        [.searchReplace ['c'] ['x']] = .inapplicable 0 :=
  C1_mismatch_yields_inapplicable ['a', 'b'] ['a', 'b']
    [.searchReplace ['c'] ['x']] 0 ['c'] ['x']
    (by decide) (by decide) (by decide)

/-- C2: for a sequence of search-replace operations whose search texts each
occur exactly once in the progressively-updated source (unique,
non-overlapping search spans), `applyEdits` applies them sequentially
against the evolving source and returns exactly the manual ordered
substitution of each search text by its replacement. -/
theorem C2_sequential_equals_manual_substitution (source : List Char)
    (pairs : List (List Char × List Char))
    (happ : Pipeline.pairsApplicable source pairs = true) :
    Pipeline.applyEdits source
        (pairs.map (fun p => Pipeline.EditOperation.searchReplace p.1 p.2)) =
      .ok (Pipeline.manualSubstitution source pairs) :=
  Pipeline.applyEditsFrom_ok pairs source 0 happ

/-- C3: for every oracle of generation results and every previously
known-good artifact, the correction supervisor performs at most 3 automatic
retry generations, and the turn ends in exactly one of: Success (the new
artifact is installed), or GivingUp after exactly 3 retries, with the error
of the final (fourth) generation attempt surfaced verbatim and the last
known-good artifact still installed — a broken artifact is never
installed. -/
theorem C3_supervisor_bounded_retries {A E : Type}
    (attempts : Nat → Pipeline.GenResult A E) (lastGood : Option A) :
    (Pipeline.runTurn attempts lastGood).retries ≤ 3 ∧
      ((∃ a, (Pipeline.runTurn attempts lastGood).result = .success a ∧
          (Pipeline.runTurn attempts lastGood).installed = some a) ∨
        (∃ e, (Pipeline.runTurn attempts lastGood).result = .gaveUp e ∧
          (Pipeline.runTurn attempts lastGood).installed = lastGood ∧
          attempts 3 = .err e ∧
          (Pipeline.runTurn attempts lastGood).retries = 3)) := by
  have := Pipeline.superviseFrom_spec attempts lastGood 3 0 0 (by omega)
  simpa [Pipeline.runTurn] using this

/-- C4: whenever the prompt validator classifies a prompt as invalid, the
turn terminates before any code generation: the turn's call trace contains
no skill-selector call and no source-generator call, and the validator's
reason is the user-facing message of the turn. -/
theorem C4_invalid_prompt_short_circuits (v : Pipeline.ValidationResult)
    (generatedMessage : List Char) (hv : v.valid = false) :
    Pipeline.PipelineCall.skillSelectorCall ∉ (Pipeline.gatedTurn v generatedMessage).calls ∧
    Pipeline.PipelineCall.sourceGeneratorCall ∉ (Pipeline.gatedTurn v generatedMessage).calls ∧
    (Pipeline.gatedTurn v generatedMessage).userMessage = v.reason := by
  simp [Pipeline.gatedTurn, hv]

/-- Witness for C4 at the spec's cold-start scenario: a prompt rejected with
reason "requests disallowed content". -/
theorem C4_invalid_prompt_short_circuits_witness :
    (Pipeline.ValidationResult.mk false "requests disallowed content".toList).valid = false ∧
    (Pipeline.PipelineCall.skillSelectorCall ∉
        (Pipeline.gatedTurn
          (Pipeline.ValidationResult.mk false "requests disallowed content".toList)
          []).calls ∧
      Pipeline.PipelineCall.sourceGeneratorCall ∉
        (Pipeline.gatedTurn
          (Pipeline.ValidationResult.mk false "requests disallowed content".toList)
          []).calls ∧
      (Pipeline.gatedTurn
          (Pipeline.ValidationResult.mk false "requests disallowed content".toList)
          []).userMessage =
        (Pipeline.ValidationResult.mk false "requests disallowed content".toList).reason) :=
  ⟨by decide, C4_invalid_prompt_short_circuits
    (Pipeline.ValidationResult.mk false "requests disallowed content".toList)
    [] (by decide)⟩

/-- C5: cancelling an in-progress cold-start streaming generation (the
cancellation budget runs out at or before the end of the delta sequence)
stops the stream — the display buffer holds exactly the deltas consumed
before cancellation — and installs no artifact from the cancelled stream:
the installed artifact is exactly the previously installed one. -/
theorem C5_cancellation_installs_nothing {A : Type}
    (compile : List Char → Option A) (prev : Option A)
    (deltas : List (List Char)) (n : Nat) (hn : n ≤ deltas.length) :
    (Pipeline.runColdStart compile prev deltas (some n)).installed = prev ∧
    (Pipeline.runColdStart compile prev deltas (some n)).installedFromStream = false ∧
    (Pipeline.runColdStart compile prev deltas (some n)).displayed =
      (deltas.take n).foldl (· ++ ·) [] := by
  rw [Pipeline.runColdStart, Pipeline.consumeStream_cancelled compile prev deltas n [] hn]
  exact ⟨rfl, rfl, rfl⟩

/-- Witness for C5 at a concrete input: a two-delta stream cancelled after
one delta, over a compiler that would otherwise install an artifact. -/
theorem C5_cancellation_installs_nothing_witness :
    (1 ≤ ([['a'], ['b']] : List (List Char)).length) ∧
    ((Pipeline.runColdStart (fun s => some s) (some ['z']) [['a'], ['b']]
        (some 1)).installed = some ['z'] ∧
      (Pipeline.runColdStart (fun s => some s) (some ['z']) [['a'], ['b']]
        (some 1)).installedFromStream = false ∧
      (Pipeline.runColdStart (fun s => some s) (some ['z']) [['a'], ['b']]
        (some 1)).displayed = (([['a'], ['b']] : List (List Char)).take 1).foldl (· ++ ·) []) :=
  ⟨by decide, C5_cancellation_installs_nothing (fun s => some s) (some ['z'])
    [['a'], ['b']] 1 (by decide)⟩

/-- C7: the stream-phase signal takes only the values idle, reasoning and
generating (the three alternatives of the `StreamPhase` type in the
source), and over the lifetime of a cold-start stream it starts at idle,
ends at idle, and every succession either stays in a phase or advances
along idle → reasoning → generating → idle. -/
theorem C7_phase_signal_ordered :
    (∀ p : Pipeline.StreamPhase,
      p = .idle ∨ p = .reasoning ∨ p = .generating) ∧
    ∀ nReason nGen : Nat,
      (Pipeline.phaseTrace nReason nGen).head? = some .idle ∧
      (Pipeline.phaseTrace nReason nGen).getLast? = some .idle ∧
      List.Chain' (fun a b => Pipeline.phaseStep a b = true)
        (Pipeline.phaseTrace nReason nGen) := by
  constructor
  · intro p
    cases p
    · exact Or.inl rfl
    · exact Or.inr (Or.inl rfl)
    · exact Or.inr (Or.inr rfl)
  intro nReason nGen
  refine ⟨rfl, ?_, ?_⟩
  · have hsplit : Pipeline.phaseTrace nReason nGen =
        (Pipeline.StreamPhase.idle ::
          (List.replicate (nReason + 1) Pipeline.StreamPhase.reasoning ++
            List.replicate (nGen + 1) Pipeline.StreamPhase.generating)) ++
          [Pipeline.StreamPhase.idle] := by
      simp [Pipeline.phaseTrace]
    rw [hsplit, List.getLast?_concat]
  · rw [Pipeline.phaseTrace, List.chain'_cons']
    constructor
    · intro y hy
      rw [List.replicate_succ, List.cons_append, List.head?_cons,
        Option.mem_some_iff] at hy
      subst hy
      decide
    · refine Pipeline.chain'_replicate_append _ _ _ (by decide) ?_ ?_ (nReason + 1)
      · intro y hy
        rw [List.replicate_succ, List.cons_append, List.head?_cons,
          Option.mem_some_iff] at hy
        subst hy
        decide
      · refine Pipeline.chain'_replicate_append _ _ _ (by decide) ?_ ?_ (nGen + 1)
        · intro y hy
          rw [List.head?_cons, Option.mem_some_iff] at hy
          subst hy
          decide
        · simp

/-- C8: media-asset blob handles persist across any sequence of store
operations that contains no explicit user-initiated reset: the revoked set
is unchanged, every previously stored asset and handle is still present,
and no pipeline operation (generation, edit application, compilation,
retry — all read-only on the store) revokes or removes anything.  Only the
explicit `clearAll` revokes: applied to the resulting store it revokes
exactly the created handles and empties the map. -/
theorem C8_handles_survive_pipeline (st : Pipeline.AssetStore)
    (ops : List Pipeline.StoreOp) (h : Pipeline.StoreOp.clearAll ∉ ops) :
    (Pipeline.runStoreOps st ops).revoked = st.revoked ∧
    (∀ a ∈ st.assetList, a ∈ (Pipeline.runStoreOps st ops).assetList) ∧
    (∀ u ∈ st.blobUrls, u ∈ (Pipeline.runStoreOps st ops).blobUrls) ∧
    (Pipeline.clearAllStore (Pipeline.runStoreOps st ops)).revoked =
      (Pipeline.runStoreOps st ops).revoked ++ (Pipeline.runStoreOps st ops).blobUrls ∧
    (Pipeline.clearAllStore (Pipeline.runStoreOps st ops)).assetList = [] := by
  induction ops generalizing st with
  | nil => exact ⟨rfl, fun a ha => ha, fun u hu => hu, rfl, rfl⟩
  | cons op rest ih =>
    rw [List.mem_cons, not_or] at h
    obtain ⟨h1, h2⟩ := h
    cases op with
    | addFiles fs =>
      have step := ih (Pipeline.addFilesStore st fs) h2
      refine ⟨step.1, ?_, ?_, step.2.2.2.1, step.2.2.2.2⟩
      · intro a ha
        exact step.2.1 a (List.mem_append_left _ ha)
      · intro u hu
        exact step.2.2.1 u (List.mem_append_left _ hu)
    | clearAll => exact absurd rfl h1
    | pipelineOp => exact ih st h2

/-- Witness for C8 at a concrete input: a store holding one handle, driven
through an addFiles call and a pipeline operation but no reset. -/
theorem C8_handles_survive_pipeline_witness :
    (Pipeline.StoreOp.clearAll ∉
      ([.addFiles [⟨"b.png".toList, "image/png".toList, 5⟩], .pipelineOp] :
        List Pipeline.StoreOp)) ∧
    ((Pipeline.runStoreOps ⟨[⟨"a.png".toList, "a.png".toList, .image,
        "image/png".toList, 0, 7⟩], [0], 1, []⟩
        [.addFiles [⟨"b.png".toList, "image/png".toList, 5⟩], .pipelineOp]).revoked =
        (⟨[⟨"a.png".toList, "a.png".toList, .image, "image/png".toList, 0, 7⟩],
          [0], 1, []⟩ : Pipeline.AssetStore).revoked ∧
      (∀ a ∈ (⟨[⟨"a.png".toList, "a.png".toList, .image, "image/png".toList, 0, 7⟩],
          [0], 1, []⟩ : Pipeline.AssetStore).assetList,
        a ∈ (Pipeline.runStoreOps ⟨[⟨"a.png".toList, "a.png".toList, .image,
          "image/png".toList, 0, 7⟩], [0], 1, []⟩
          [.addFiles [⟨"b.png".toList, "image/png".toList, 5⟩], .pipelineOp]).assetList) ∧
      (∀ u ∈ (⟨[⟨"a.png".toList, "a.png".toList, .image, "image/png".toList, 0, 7⟩],
          [0], 1, []⟩ : Pipeline.AssetStore).blobUrls,
        u ∈ (Pipeline.runStoreOps ⟨[⟨"a.png".toList, "a.png".toList, .image,
          "image/png".toList, 0, 7⟩], [0], 1, []⟩
          [.addFiles [⟨"b.png".toList, "image/png".toList, 5⟩], .pipelineOp]).blobUrls) ∧
      (Pipeline.clearAllStore (Pipeline.runStoreOps ⟨[⟨"a.png".toList, "a.png".toList,
          .image, "image/png".toList, 0, 7⟩], [0], 1, []⟩
          [.addFiles [⟨"b.png".toList, "image/png".toList, 5⟩], .pipelineOp])).revoked =
        (Pipeline.runStoreOps ⟨[⟨"a.png".toList, "a.png".toList, .image,
          "image/png".toList, 0, 7⟩], [0], 1, []⟩
          [.addFiles [⟨"b.png".toList, "image/png".toList, 5⟩], .pipelineOp]).revoked ++
        (Pipeline.runStoreOps ⟨[⟨"a.png".toList, "a.png".toList, .image,
          "image/png".toList, 0, 7⟩], [0], 1, []⟩
          [.addFiles [⟨"b.png".toList, "image/png".toList, 5⟩], .pipelineOp]).blobUrls ∧
      (Pipeline.clearAllStore (Pipeline.runStoreOps ⟨[⟨"a.png".toList, "a.png".toList,
          .image, "image/png".toList, 0, 7⟩], [0], 1, []⟩
          [.addFiles [⟨"b.png".toList, "image/png".toList, 5⟩], .pipelineOp])).assetList = []) :=
  ⟨by decide, C8_handles_survive_pipeline
    ⟨[⟨"a.png".toList, "a.png".toList, .image, "image/png".toList, 0, 7⟩], [0], 1, []⟩
    [.addFiles [⟨"b.png".toList, "image/png".toList, 5⟩], .pipelineOp] (by decide)⟩

/-- C9: starting from an asset list with pairwise-distinct names, `addFiles`
yields pairwise-distinct names again; it never overwrites — the previous
assets are kept as a prefix and the new assets are appended; files whose
mime type is not image/video/audio are skipped entirely (the new assets
correspond exactly, in order, to the media files of the batch); and each
new asset keeps its original name or gets a numeric suffix `_k` (k ≥ 2)
inserted before its extension. -/
theorem C9_addFiles_names_distinct (st : Pipeline.AssetStore)
    (files : List Pipeline.MFile)
    (hnodup : (st.assetList.map (fun a => a.name)).Nodup) :
    ((Pipeline.addFilesStore st files).assetList.map (fun a => a.name)).Nodup ∧
    (Pipeline.addFilesStore st files).assetList =
      st.assetList ++
        Pipeline.addFilesGo (st.assetList.map (fun a => a.name)) st.nextUrl files ∧
    (Pipeline.addFilesGo (st.assetList.map (fun a => a.name)) st.nextUrl files).map
        (fun a => a.originalName) =
      (files.filter (fun f => (Pipeline.classifyFileType f.mimeType).isSome)).map
        (fun f => f.name) ∧
    ∀ a ∈ Pipeline.addFilesGo (st.assetList.map (fun a => a.name)) st.nextUrl files,
      a.name = a.originalName ∨
      ∃ k, 2 ≤ k ∧
        a.name =
          Pipeline.candidate (Pipeline.splitExt a.originalName).1
            (Pipeline.splitExt a.originalName).2 k := by
  have hfresh := Pipeline.addFilesGo_fresh files
    (st.assetList.map (fun a => a.name)) st.nextUrl
  refine ⟨?_, rfl, Pipeline.addFilesGo_skips files _ _, Pipeline.addFilesGo_form files _ _⟩
  rw [Pipeline.addFilesStore]
  simp only [List.map_append]
  apply List.Nodup.append hnodup hfresh.2
  intro x hx1 hx2
  rw [List.mem_map] at hx2
  obtain ⟨a, ha, hname⟩ := hx2
  exact hfresh.1 a ha (by rw [hname]; exact hx1)

/-- Witness for C9 at a concrete input: a store already holding "a.png" and
a batch with a colliding "a.png" image and a non-media text file. -/
theorem C9_addFiles_names_distinct_witness :
    ((⟨[⟨"a.png".toList, "a.png".toList, .image, "image/png".toList, 0, 7⟩],
        [0], 1, []⟩ : Pipeline.AssetStore).assetList.map (fun a => a.name)).Nodup ∧
    (((Pipeline.addFilesStore ⟨[⟨"a.png".toList, "a.png".toList, .image,
        "image/png".toList, 0, 7⟩], [0], 1, []⟩
        [⟨"a.png".toList, "image/png".toList, 3⟩,
          ⟨"n.txt".toList, "text/plain".toList, 2⟩]).assetList.map
        (fun a => a.name)).Nodup ∧
      (Pipeline.addFilesStore ⟨[⟨"a.png".toList, "a.png".toList, .image,
          "image/png".toList, 0, 7⟩], [0], 1, []⟩
          [⟨"a.png".toList, "image/png".toList, 3⟩,
            ⟨"n.txt".toList, "text/plain".toList, 2⟩]).assetList =
        (⟨[⟨"a.png".toList, "a.png".toList, .image, "image/png".toList, 0, 7⟩],
          [0], 1, []⟩ : Pipeline.AssetStore).assetList ++
          Pipeline.addFilesGo
            ((⟨[⟨"a.png".toList, "a.png".toList, .image, "image/png".toList, 0, 7⟩],
              [0], 1, []⟩ : Pipeline.AssetStore).assetList.map (fun a => a.name)) 1
            [⟨"a.png".toList, "image/png".toList, 3⟩,
              ⟨"n.txt".toList, "text/plain".toList, 2⟩] ∧
      (Pipeline.addFilesGo
          ((⟨[⟨"a.png".toList, "a.png".toList, .image, "image/png".toList, 0, 7⟩],
            [0], 1, []⟩ : Pipeline.AssetStore).assetList.map (fun a => a.name)) 1
          [⟨"a.png".toList, "image/png".toList, 3⟩,
            ⟨"n.txt".toList, "text/plain".toList, 2⟩]).map (fun a => a.originalName) =
        (([⟨"a.png".toList, "image/png".toList, 3⟩,
          ⟨"n.txt".toList, "text/plain".toList, 2⟩] : List Pipeline.MFile).filter
          (fun f => (Pipeline.classifyFileType f.mimeType).isSome)).map
          (fun f => f.name) ∧
      ∀ a ∈ Pipeline.addFilesGo
          ((⟨[⟨"a.png".toList, "a.png".toList, .image, "image/png".toList, 0, 7⟩],
            [0], 1, []⟩ : Pipeline.AssetStore).assetList.map (fun a => a.name)) 1
          [⟨"a.png".toList, "image/png".toList, 3⟩,
            ⟨"n.txt".toList, "text/plain".toList, 2⟩],
        a.name = a.originalName ∨
        ∃ k, 2 ≤ k ∧
          a.name =
            Pipeline.candidate (Pipeline.splitExt a.originalName).1
              (Pipeline.splitExt a.originalName).2 k) :=
  ⟨by decide, C9_addFiles_names_distinct
    ⟨[⟨"a.png".toList, "a.png".toList, .image, "image/png".toList, 0, 7⟩], [0], 1, []⟩
    [⟨"a.png".toList, "image/png".toList, 3⟩,
      ⟨"n.txt".toList, "text/plain".toList, 2⟩] (by decide)⟩

/-- C10: the media-attachments hook keeps the attached list at length at
most 10 under both `processFiles` and `addImageFromBase64`, truncating any
excess from the combined list; `canAddMore` holds exactly when the list is
below 10; every attachment added by `processFiles` is within its per-type
size limit (10MB images, 200MB videos, 50MB audio); and an oversized media
file is never attached — it is reported by name in the error message. -/
theorem C10_attachment_limits (prev : List Pipeline.AttachedFile)
    (files : List Pipeline.MFile)
    (hprev : prev.length ≤ Pipeline.MAX_ATTACHED_FILES) :
    (Pipeline.processFiles prev files).1.length ≤ Pipeline.MAX_ATTACHED_FILES ∧
    (Pipeline.addImageFromBase64 prev).length ≤ Pipeline.MAX_ATTACHED_FILES ∧
    (Pipeline.canAddMore prev = true ↔
      prev.length < Pipeline.MAX_ATTACHED_FILES) ∧
    (∀ a ∈ (Pipeline.processFiles prev files).1,
      a ∈ prev ∨ a.size ≤ Pipeline.getMaxSizeForType a.mimeType) ∧
    (∀ f ∈ files, Pipeline.isMediaFile f = true →
      Pipeline.getMaxSizeForType f.mimeType < f.size →
      ∃ msg, (Pipeline.processFiles prev files).2 = some msg ∧
        f.name <:+: msg) := by
  refine ⟨?_, ?_, ?_, ?_, ?_⟩
  · by_cases hv : (Pipeline.filterValidFiles (files.filter Pipeline.isMediaFile)).1 = []
    · simpa [Pipeline.processFiles, hv] using hprev
    · simp only [Pipeline.processFiles, hv, if_neg, if_false]
      rw [List.length_take]
      omega
  · rw [Pipeline.addImageFromBase64, List.length_take]
    omega
  · simp [Pipeline.canAddMore]
  · intro a ha
    by_cases hv : (Pipeline.filterValidFiles (files.filter Pipeline.isMediaFile)).1 = []
    · simp only [Pipeline.processFiles, hv, if_pos] at ha
      exact Or.inl ha
    · simp only [Pipeline.processFiles, hv, if_neg, if_false] at ha
      have ha2 := List.take_subset Pipeline.MAX_ATTACHED_FILES _ ha
      rcases List.mem_append.mp ha2 with hp | hm
      · exact Or.inl hp
      · rw [List.mem_map] at hm
        obtain ⟨f0, hf0, rfl⟩ := hm
        have := (Pipeline.filterValidFiles_valid _ f0 hf0).2
        exact Or.inr this
  · intro f hf hmedia hbig
    have hfm : f ∈ files.filter Pipeline.isMediaFile :=
      List.mem_filter.mpr ⟨hf, hmedia⟩
    have hdesc := Pipeline.filterValidFiles_oversized _ f hfm hbig
    have hne : (Pipeline.filterValidFiles (files.filter Pipeline.isMediaFile)).2 ≠ [] :=
      List.ne_nil_of_mem hdesc
    refine ⟨Pipeline.tooLargeMessage
      (Pipeline.filterValidFiles (files.filter Pipeline.isMediaFile)).2, ?_,
      Pipeline.name_infix_tooLargeMessage f _ hdesc⟩
    by_cases hv : (Pipeline.filterValidFiles (files.filter Pipeline.isMediaFile)).1 = []
    · simp [Pipeline.processFiles, hv, hne]
    · simp [Pipeline.processFiles, hv, hne]

/-- Witness for C10 at a concrete input: an empty attachment list and a
batch with one oversized video. -/
theorem C10_attachment_limits_witness :
    (([] : List Pipeline.AttachedFile).length ≤ Pipeline.MAX_ATTACHED_FILES) ∧
    ((Pipeline.processFiles []
        [⟨"big.mp4".toList, "video/mp4".toList, 300000000⟩]).1.length ≤
        Pipeline.MAX_ATTACHED_FILES ∧
      (Pipeline.addImageFromBase64 []).length ≤ Pipeline.MAX_ATTACHED_FILES ∧
      (Pipeline.canAddMore [] = true ↔
        ([] : List Pipeline.AttachedFile).length < Pipeline.MAX_ATTACHED_FILES) ∧
      (∀ a ∈ (Pipeline.processFiles []
          [⟨"big.mp4".toList, "video/mp4".toList, 300000000⟩]).1,
        a ∈ ([] : List Pipeline.AttachedFile) ∨
          a.size ≤ Pipeline.getMaxSizeForType a.mimeType) ∧
      (∀ f ∈ ([⟨"big.mp4".toList, "video/mp4".toList, 300000000⟩] :
          List Pipeline.MFile), Pipeline.isMediaFile f = true →
        Pipeline.getMaxSizeForType f.mimeType < f.size →
        ∃ msg, (Pipeline.processFiles []
            [⟨"big.mp4".toList, "video/mp4".toList, 300000000⟩]).2 = some msg ∧
          f.name <:+: msg)) :=
  ⟨by decide, C10_attachment_limits []
    [⟨"big.mp4".toList, "video/mp4".toList, 300000000⟩] (by decide)⟩

/-- C6: on raw output consisting of narrative prose surrounding a fenced
block that holds import/module statements followed by a recognizable
component definition, `sanitize` returns exactly the component definition
body with the import/module statements stripped, and the result does not
depend on the fence style (the same body is returned for every style);
on raw output with no recognizable component definition anywhere,
`sanitize` fails with `NoComponentFound`. -/
theorem C6_sanitize_extracts_component (pro1 pro2 imps code : List (List Char))
    (t : List Char) (st : Pipeline.FenceStyle) (raw : List Pipeline.Line)
    (hraw : ∀ l ∈ raw, Pipeline.isComponentStart l = false) :
    Pipeline.sanitize (pro1.map Pipeline.Line.proseLine ++
        [Pipeline.Line.fenceMarker st] ++ imps.map Pipeline.Line.moduleStmt ++
        (Pipeline.Line.componentDef t :: code.map Pipeline.Line.codeLine) ++
        [Pipeline.Line.fenceMarker st] ++ pro2.map Pipeline.Line.proseLine) =
      .ok (Pipeline.Line.componentDef t :: code.map Pipeline.Line.codeLine) ∧
    Pipeline.sanitize raw = .noComponentFound := by
  constructor
  · simp only [List.append_assoc, List.singleton_append, List.cons_append,
      List.nil_append]
    have hP : ∀ x ∈ pro1.map Pipeline.Line.proseLine,
        (!Pipeline.isFence x) = true := by
      intro x hx
      rw [List.mem_map] at hx
      obtain ⟨a, _, rfl⟩ := hx
      rfl
    have hX : ∀ x ∈ imps.map Pipeline.Line.moduleStmt ++
        (Pipeline.Line.componentDef t :: code.map Pipeline.Line.codeLine),
        (!Pipeline.isFence x) = true := by
      intro x hx
      rcases List.mem_append.mp hx with hx | hx
      · rw [List.mem_map] at hx
        obtain ⟨a, _, rfl⟩ := hx
        rfl
      · rcases List.mem_cons.mp hx with rfl | hx
        · rfl
        · rw [List.mem_map] at hx
          obtain ⟨a, _, rfl⟩ := hx
          rfl
    have hM : imps.map Pipeline.Line.moduleStmt ++
        (Pipeline.Line.componentDef t :: (code.map Pipeline.Line.codeLine ++
          (Pipeline.Line.fenceMarker st :: pro2.map Pipeline.Line.proseLine))) =
        (imps.map Pipeline.Line.moduleStmt ++
          (Pipeline.Line.componentDef t :: code.map Pipeline.Line.codeLine)) ++
          (Pipeline.Line.fenceMarker st :: pro2.map Pipeline.Line.proseLine) := by
      simp
    have hEF : Pipeline.extractFenced (pro1.map Pipeline.Line.proseLine ++
        (Pipeline.Line.fenceMarker st :: (imps.map Pipeline.Line.moduleStmt ++
          (Pipeline.Line.componentDef t :: (code.map Pipeline.Line.codeLine ++
            (Pipeline.Line.fenceMarker st :: pro2.map Pipeline.Line.proseLine)))))) =
        imps.map Pipeline.Line.moduleStmt ++
          (Pipeline.Line.componentDef t :: code.map Pipeline.Line.codeLine) := by
      rw [Pipeline.extractFenced, if_pos (by simp [Pipeline.isFence])]
      rw [Pipeline.dropWhile_append_of_all _ _ _ hP]
      rw [List.dropWhile_cons_of_neg (by simp [Pipeline.isFence])]
      rw [List.drop_succ_cons, List.drop_zero, hM]
      exact Pipeline.takeWhile_append_of_all _ _ _ _ hX rfl
    rw [Pipeline.sanitize, hEF, Pipeline.stripImports, List.filter_append]
    have h1 : (imps.map Pipeline.Line.moduleStmt).filter
        (fun l => !Pipeline.isModuleStmt l) = [] :=
      Pipeline.stripImports_of_moduleStmts imps
    have h2 : (Pipeline.Line.componentDef t ::
        code.map Pipeline.Line.codeLine).filter
        (fun l => !Pipeline.isModuleStmt l) =
        Pipeline.Line.componentDef t :: code.map Pipeline.Line.codeLine := by
      rw [List.filter_eq_self]
      intro a ha
      rcases List.mem_cons.mp ha with rfl | ha
      · rfl
      · rw [List.mem_map] at ha
        obtain ⟨b, _, rfl⟩ := ha
        rfl
    rw [h1, h2, List.nil_append,
      List.dropWhile_cons_of_neg (by simp [Pipeline.isComponentStart])]
    rfl
  · have hall : (Pipeline.stripImports (Pipeline.extractFenced raw)).dropWhile
        (fun l => !Pipeline.isComponentStart l) = [] := by
      rw [List.dropWhile_eq_nil_iff]
      intro x hx
      simp [hraw x (Pipeline.sanitize_content_subset raw x hx)]
    rw [Pipeline.sanitize, hall]
    rfl

/-- Witness for C6 at a concrete input: prose around a tilde-fenced block
holding one import and a two-line component, and a prose-only raw output
for the failure half. -/
theorem C6_sanitize_extracts_component_witness :
    (∀ l ∈ ([.proseLine "hi".toList] : List Pipeline.Line),
      Pipeline.isComponentStart l = false) ∧
    (Pipeline.sanitize (["Sure!".toList].map Pipeline.Line.proseLine ++
        [Pipeline.Line.fenceMarker .tildeFence] ++
        ["import React".toList].map Pipeline.Line.moduleStmt ++
        (Pipeline.Line.componentDef "const MyComp = () => \x7b".toList ::
          ["\x7d".toList].map Pipeline.Line.codeLine) ++
        [Pipeline.Line.fenceMarker .tildeFence] ++
        ["Enjoy!".toList].map Pipeline.Line.proseLine) =
      .ok (Pipeline.Line.componentDef "const MyComp = () => \x7b".toList ::
        ["\x7d".toList].map Pipeline.Line.codeLine) ∧
    Pipeline.sanitize [.proseLine "hi".toList] = .noComponentFound) :=
  ⟨by decide, C6_sanitize_extracts_component ["Sure!".toList] ["Enjoy!".toList]
    ["import React".toList] ["\x7d".toList] "const MyComp = () => \x7b".toList
    .tildeFence [.proseLine "hi".toList] (by decide)⟩

/-- Witness for C2 at a concrete input: "abc" with "a"→"x" then "c"→"y"
gives "xby", matching the manual substitution. -/
theorem C2_sequential_equals_manual_substitution_witness :
    Pipeline.applyEdits ['a', 'b', 'c']
        ([(['a'], ['x']), (['c'], ['y'])].map
          (fun p => Pipeline.EditOperation.searchReplace p.1 p.2)) =
      .ok (Pipeline.manualSubstitution ['a', 'b', 'c']
        [(['a'], ['x']), (['c'], ['y'])]) :=
  C2_sequential_equals_manual_substitution ['a', 'b', 'c']
    [(['a'], ['x']), (['c'], ['y'])] (by decide)
